import Mathlib

/-!
Verification development for the learnMSA forward/backward/Viterbi engine
(`src/learnMSA/msa_hmm/MsaHmmLayer.py`, `src/learnMSA/msa_hmm/Viterbi.py`,
`src/learnMSA/msa_hmm/Emitter.py`).

The scaled log-domain arithmetic of the Python code exists only to avoid
floating-point underflow.  Over exact rational arithmetic the split
(value, scale) representation reconstructs the plain probability-space
quantities (spec section 3: "local + scale reconstructs the true unscaled
log forward value"), so the forward/backward/posterior/chunking layer is
embedded in probability space over `ℚ`: a log-domain equality "within
numerical tolerance" corresponds to exact equality of the underlying
probability-space values.  The Viterbi layer works directly on log-domain
tensors (`hmm_cell.log_A_dense`, `safe_log` images); it is embedded with
those log-domain tensors as rational-valued inputs.  `safe_log` itself and
the softmax-based emission-matrix construction are genuinely about real
logarithms/exponentials and are embedded over `ℝ`.

`MsaHmmCell`, `TotalProbabilityCell`, the reverse cell and the sequence
dataset are code of this repository that is not under `src/`; definitions
that depend on them are modelled from the spec and say so in their doc
comments.
-/

namespace LearnMSA

/-! ## Probability-space model of the forward/backward engines

An HMM as consumed by `MsaHmmLayer` (one model, one batch element): an
initial distribution, a dense transition operator `A` and the per-position
emission probabilities `e` (the output of `cell.emission_probs`, i.e. the
tensor indexed `(position, state)`). -/

structure HMM (Q : ℕ) where
  init : Fin Q → ℚ
  A : Fin Q → Fin Q → ℚ
  e : ℕ → Fin Q → ℚ

variable {Q : ℕ}

/-- Modelled from the spec: the unchunked scaled forward recursion of
`MsaHmmCell` (not in `src/`), spec section 4.2: `gamma_0 = init * emission_0`,
`gamma_i = (sum over predecessor states of gamma_{i-1} * A) * emission_i`,
written in probability space (the spec's log-domain formulation with the
scaling offsets removed exactly). -/
def forward (m : HMM Q) : ℕ → Fin Q → ℚ
  | 0, q => m.init q * m.e 0 q
  | i + 1, q => (∑ r, forward m i r * m.A r q) * m.e (i + 1) q

/-- Modelled from the spec: the total likelihood read off the final forward
variables, spec section 3: "summing `exp(local+scale)` over real states at
the final position ... equals the sequence likelihood". -/
def lik (m : HMM Q) (L : ℕ) : ℚ := ∑ q, forward m (L - 1) q

/-- Modelled from the spec: the backward recursion (the reverse cell of
`MsaHmmLayer.backward_recursion` is not in `src/`), spec section 4.3: the
mirror of the forward engine run against the reversed model over the
reversed input.  `bwdAux m L j q` is the backward variable at position
`L-1-j`: probability of the observation suffix strictly after that
position, given state `q` there. -/
def bwdAux (m : HMM Q) (L : ℕ) : ℕ → Fin Q → ℚ
  | 0, _ => 1
  | j + 1, q => ∑ r, m.A q r * m.e (L - 1 - j) r * bwdAux m L j r

/-- Backward variable in position order: `backward m L i q` is the backward
value at position `i` (source: the re-reversed output of
`MsaHmmLayer.backward_recursion`, `MsaHmmLayer.py` lines 161-170). -/
def backward (m : HMM Q) (L i : ℕ) (q : Fin Q) : ℚ := bwdAux m L (L - 1 - i) q

/-- State posterior, probability-space form of
`MsaHmmLayer.state_posterior_log_probs` (`MsaHmmLayer.py` lines 235-252):
`exp(forward + backward - loglik)` becomes `forward * backward / lik`. -/
def posterior (m : HMM Q) (L i : ℕ) (q : Fin Q) : ℚ :=
  forward m i q * backward m L i q / lik m L

/-! ## Chunked (parallel) forward

`MsaHmmLayer.forward_recursion` with `parallel_factor = P` splits the
`L` positions into `P` chunks of size `Δ = L / P` and runs the recursion
inside each chunk seeded with every possible entering state, producing a
`Q x Q` operator per chunk position (spec sections 3 and 4.2; the chunk
seeding lives in `MsaHmmCell.get_initial_state`, not in `src/`, and is
modelled from the spec: chunk 0 is seeded with the identity over states,
later chunks additionally apply the transition into their first position). -/

/-- Modelled from the spec (chunk-local `Q x Q` forward operator,
spec section 3 "Chunk"): `chunkOp m Δ c t r q` is the chunk-local forward
probability of chunk `c` at local position `t`, entering state `r`,
current state `q`. -/
def chunkOp (m : HMM Q) (Δ c : ℕ) : ℕ → Fin Q → Fin Q → ℚ
  | 0, r, q => (if c = 0 then (if r = q then (1 : ℚ) else 0) else m.A r q) * m.e (c * Δ) q
  | t + 1, r, q => (∑ s, chunkOp m Δ c t r s * m.A s q) * m.e (c * Δ + t + 1) q

/-- Modelled from the spec: the Chunk Composer (`TotalProbabilityCell`, not
in `src/`), spec section 4.4: the running left-to-right product of the
per-chunk last-position operators applied to the true initial distribution.
`entering m Δ c` is the true entering-state distribution of chunk `c`
(joint with the observations of chunks `0..c-1`). -/
def entering (m : HMM Q) (Δ : ℕ) : ℕ → Fin Q → ℚ
  | 0, q => m.init q
  | c + 1, q => ∑ r, entering m Δ c r * chunkOp m Δ c (Δ - 1) r q

/-- Probability-space form of `MsaHmmLayer._get_total_forward_from_chunks`
(`MsaHmmLayer.py` lines 112-135): re-inject the boundary distribution `T`
(for chunk 0 the code uses `init + cell.epsilon`, line 128; `ε` is that
epsilon of the cell, which is not in `src/`) into the chunk-local operators
and marginalize over the entering state (the `reduce_logsumexp` on line 133). -/
def chunkedForward (m : HMM Q) (Δ : ℕ) (ε : ℚ) (i : ℕ) (q : Fin Q) : ℚ :=
  ∑ r, (entering m Δ (i / Δ) r + (if i / Δ = 0 then ε else 0)) * chunkOp m Δ (i / Δ) (i % Δ) r q

/-- Modelled from the spec: the chunked log-likelihood is read off the final
prefix value of the Chunk Composer (spec section 4.2; the accumulator lives
in `TotalProbabilityCell`, not in `src/`), i.e. the total mass of the
entering distribution after all `P` chunks. -/
def chunkedLik (m : HMM Q) (Δ P : ℕ) : ℚ := ∑ q, entering m Δ P q

/-- `MsaHmmLayer.forward_recursion` (`MsaHmmLayer.py` lines 72-109).
`tf.reshape(emission_probs, (num_model*b*P, seq_len // P, q))` on line 91
succeeds exactly when the element counts match, i.e. when
`P * (L / P) = L` with `P` nonzero; otherwise TensorFlow raises a shape
error (or `seq_len // 0` fails), modelled as `none`. -/
def forwardRecursion (m : HMM Q) (ε : ℚ) (L P : ℕ) :
    Option ((ℕ → Fin Q → ℚ) × ℚ) :=
  if P * (L / P) = L ∧ 0 < P then
    if P = 1 then some (forward m, lik m L)
    else some (chunkedForward m (L / P) ε, chunkedLik m (L / P) P)
  else none

/-- The padded model: `ProfileHMMEmitter.make_B` (`Emitter.py` lines 66-74)
pads the emission matrix with all-zero rows up to `max_num_states`, so
padding states have emission probability 0 at every position; the padded
rows/columns of the transition operator and initial distribution live in
the cell (not in `src/`) and are modelled from the spec, section 3: "padded
rows/columns set to leave probability mass zero". -/
def padHMM (m : HMM Q) (p : ℕ) : HMM (Q + p) where
  init := fun q => if h : q.1 < Q then m.init ⟨q.1, h⟩ else 0
  A := fun r q => if h : r.1 < Q ∧ q.1 < Q then m.A ⟨r.1, h.1⟩ ⟨q.1, h.2⟩ else 0
  e := fun i q => if h : q.1 < Q then m.e i ⟨q.1, h⟩ else 0

/-! ## Log-domain model of the Viterbi engine

`Viterbi.py` operates directly on log-domain tensors: `hmm_cell.log_A_dense`
(a tensor of the cell, which is not in `src/`), `safe_log(init_dist)`,
`safe_log(emission_probs)` and `safe_log(mask)`.  The embedding takes those
log-domain tensors as rational-valued inputs.  Per spec sections 4.1 and 7
every zero-probability entry routes through `safe_log`, so every entry is
either the finite sentinel `-1000` (`log_zero_val` in `Viterbi.py` line 10)
or a true logarithm of a nonzero probability, hence lies in `[-1000, 0]`
for probabilities in `[0, 1]`. -/

structure LogHMM (k : ℕ) where
  logInit : Fin k → ℚ
  logA : Fin k → Fin k → ℚ
  logE : ℕ → Fin k → ℚ
  maskLog : ℕ → Fin k → Fin k → ℚ

instance finNonempty (k : ℕ) [NeZero k] : Nonempty (Fin k) :=
  ⟨⟨0, Nat.pos_of_ne_zero (NeZero.ne k)⟩⟩

instance instNeZeroAdd (k p : ℕ) [NeZero k] : NeZero (k + p) :=
  ⟨by have := NeZero.ne k; omega⟩

/-- `tf.reduce_max` over the state axis. -/
def maxFin {k : ℕ} [NeZero k] (f : Fin k → ℚ) : ℚ :=
  Finset.univ.sup' Finset.univ_nonempty f

/-- `tf.math.argmax` over the state axis: the first index attaining the
maximum (TensorFlow returns the smallest index in case of ties). -/
def argmaxFin {k : ℕ} [NeZero k] (f : Fin k → ℚ) : Fin k :=
  (Finset.univ.filter fun i => ∀ j, f j ≤ f i).min' (by
    obtain ⟨b, _, hb⟩ := Finset.exists_max_image Finset.univ f
      (Finset.univ_nonempty (α := Fin k))
    exact ⟨b, Finset.mem_filter.mpr ⟨Finset.mem_univ b, fun j => hb j (Finset.mem_univ j)⟩⟩)

/-- `viterbi_step` (`Viterbi.py` lines 20-35): one Viterbi dynamic
programming step.  `a = log_A_dense + gamma_prev`, plus `safe_log(mask)`
when a mask is supplied (`maskLog` is the zero function when no mask is
supplied, since no term is added then), reduced with max over the
predecessor axis, plus `safe_log(emission_probs_i)`. -/
def viterbi_step {k : ℕ} [NeZero k] (V : LogHMM k) (gamma_prev : Fin k → ℚ) (i : ℕ)
    (q : Fin k) : ℚ :=
  maxFin (fun r => V.logA r q + gamma_prev r + V.maskLog i r q) + V.logE i q

/-- The Viterbi score table of `viterbi_dyn_prog` (`Viterbi.py` lines
38-64): `gamma_0 = safe_log(init) + safe_log(emission_0)`, then one
`viterbi_step` per position accumulated into the table. -/
def gammaTable {k : ℕ} [NeZero k] (V : LogHMM k) : ℕ → Fin k → ℚ
  | 0, q => V.logInit q + V.logE 0 q
  | i + 1, q => viterbi_step V (gammaTable V i) (i + 1) q

/-- `viterbi_backtracking` (`Viterbi.py` lines 85-104), indexed from the
end: `backtrack V L j` is the decoded state at position `L-1-j`.  The start
is `argmax` of the last `gamma` row; each `viterbi_backtracking_step`
(lines 67-82) gathers the column of `log_A_dense` (plus the transposed mask
log) at the previously decoded state and takes `argmax` after adding the
`gamma` row. -/
def backtrack {k : ℕ} [NeZero k] (V : LogHMM k) (L : ℕ) : ℕ → Fin k
  | 0 => argmaxFin (fun q => gammaTable V (L - 1) q)
  | j + 1 => argmaxFin (fun r =>
      V.logA r (backtrack V L j) + V.maskLog (L - 1 - j) r (backtrack V L j)
        + gammaTable V (L - 1 - (j + 1)) r)

/-- The state path returned by `viterbi` (`Viterbi.py` lines 107-126) in
position order. -/
def viterbiPath {k : ℕ} [NeZero k] (V : LogHMM k) (L i : ℕ) : Fin k :=
  backtrack V L (L - 1 - i)

/-- Log-probability accumulated along the returned path, position by
position: initial-state log-probability plus the emission log-probability
at position 0, then one transition (with its mask term) and one emission
log-probability per later position. -/
def pathScore {k : ℕ} [NeZero k] (V : LogHMM k) (L : ℕ) : ℕ → ℚ
  | 0 => V.logInit (viterbiPath V L 0) + V.logE 0 (viterbiPath V L 0)
  | i + 1 => pathScore V L i
      + V.logA (viterbiPath V L i) (viterbiPath V L (i + 1))
      + V.maskLog (i + 1) (viterbiPath V L i) (viterbiPath V L (i + 1))
      + V.logE (i + 1) (viterbiPath V L (i + 1))

/-- The `safe_log` image of the 0/1 transition mask that forbids every
transition at every position except those along the designated path `π`:
`safe_log 1 = 0` on the path, `safe_log 0 = -1000` off it. -/
def pathMask {k : ℕ} (π : ℕ → Fin k) (i : ℕ) (r q : Fin k) : ℚ :=
  if r = π (i - 1) ∧ q = π i then 0 else -1000

/-- The padded log-domain model: emission rows of padding states are zero
(`make_B`, `Emitter.py` lines 66-74), so their `safe_log` image is the
sentinel `-1000`; padded transition rows/columns and initial entries carry
zero probability (spec section 3, cell not in `src/`), sentinel `-1000`
likewise.  Decoding without a transition mask. -/
def padLogHMM {k : ℕ} (V : LogHMM k) (p : ℕ) : LogHMM (k + p) where
  logInit := fun q => if h : q.1 < k then V.logInit ⟨q.1, h⟩ else -1000
  logA := fun r q => if h : r.1 < k ∧ q.1 < k then V.logA ⟨r.1, h.1⟩ ⟨q.1, h.2⟩ else -1000
  logE := fun i q => if h : q.1 < k then V.logE i ⟨q.1, h⟩ else -1000
  maskLog := fun _ _ _ => 0

/-- One (model, sequence) entry of `get_state_seqs_max_lik` (`Viterbi.py`
lines 162-193): the output array is initialized with the terminal state id
`num_states - 1` (lines 185-186), then the slice `[:, batch_indices, :l]`
is overwritten with the Viterbi decoding of the sequence's batch (line
193), where `l` is the width of that decoded batch (1 plus the largest
true sequence length in the batch, `DefaultBatchGenerator.__call__`,
`Training.py` lines 88-93).  `stateSeqEntry V l p` is the resulting value
at position `p` for a sequence whose batch was decoded at width `l`. -/
def stateSeqEntry {k : ℕ} [NeZero k] (V : LogHMM k) (l p : ℕ) : ℕ :=
  if p < l then (viterbiPath V l p).1 else k - 1

/-! ## Real-valued scaling arithmetic and emission matrices -/

/-- `np.finfo(np.float32).tiny`, the smallest positive normal float32
(`Viterbi.py` line 13). -/
noncomputable def floatTiny : ℝ := 1 / 2 ^ 126

/-- `tf.cast(tf.equal(x, 0), ...)` (`Viterbi.py` line 15). -/
noncomputable def zero_mask (x : ℝ) : ℝ := if x = 0 then 1 else 0

/-- `safe_log` (`Viterbi.py` lines 10-17) with its default
`log_zero_val = -1e3`: `log(max(x, tiny))` blended element-wise with the
sentinel through the zero mask, with no data-dependent branch. -/
noncomputable def safe_log (x : ℝ) : ℝ :=
  (1 - zero_mask x) * Real.log (max x floatTiny) + zero_mask x * (-1000)

/-- `tf.nn.softmax` on one row of logits (`Emitter.py` line 117). -/
noncomputable def softmaxRow {s : ℕ} (v : Fin s → ℝ) (j : Fin s) : ℝ :=
  Real.exp (v j) / ∑ t, Real.exp (v t)

/-- The stacked kernel of `make_default_emission_matrix` (`Emitter.py`
lines 114-116): one shared insertion row, the `length` match rows, then
`length + 1` more copies of the insertion row. -/
noncomputable def stackedKernel {s : ℕ} (em : ℕ → Fin s → ℝ) (ins : Fin s → ℝ)
    (length : ℕ) : Fin (2 * length + 2) → Fin s → ℝ :=
  fun r => if r.1 = 0 then ins else if r.1 ≤ length then em (r.1 - 1) else ins

/-- `make_default_emission_matrix` (`Emitter.py` lines 103-121): softmax of
every stacked kernel row, a zero column appended for the terminal symbol,
and the one-hot end-state row appended at the bottom. -/
noncomputable def make_default_emission_matrix {s : ℕ} (em : ℕ → Fin s → ℝ)
    (ins : Fin s → ℝ) (length : ℕ) : Fin (2 * length + 3) → Fin (s + 1) → ℝ :=
  fun r j =>
    if hr : r.1 < 2 * length + 2 then
      if hj : j.1 < s then softmaxRow (stackedKernel em ins length ⟨r.1, hr⟩) ⟨j.1, hj⟩
      else 0
    else if j.1 = s then 1 else 0

/-- `ProfileHMMEmitter.make_B` (`Emitter.py` lines 66-74) for one model:
the emission matrix padded with `pad` all-zero rows up to
`max_num_states`. -/
noncomputable def make_B {s : ℕ} (em : ℕ → Fin s → ℝ) (ins : Fin s → ℝ)
    (length pad : ℕ) : Fin (2 * length + 3 + pad) → Fin (s + 1) → ℝ :=
  fun r j =>
    if hr : r.1 < 2 * length + 3 then make_default_emission_matrix em ins length ⟨r.1, hr⟩ j
    else 0

/-! ## Concrete instances used by witnesses and counterexamples -/

/-- A tiny concrete probability-space model (one state, uniform emissions
of probability one half). -/
def mW : HMM 1 where
  init := fun _ => 1
  A := fun _ _ => 1
  e := fun _ _ => 1 / 2

/-- A two-state probability-space model used by witnesses. -/
def mW2 : HMM 2 where
  init := ![9 / 10, 1 / 10]
  A := ![![3 / 4, 1 / 4], ![1 / 2, 1 / 2]]
  e := fun i => if i = 0 then ![1 / 3, 2 / 3] else ![1 / 5, 4 / 5]

/-- A concrete log-domain model used by Viterbi witnesses (no mask). -/
def vW : LogHMM 2 where
  logInit := ![-1, -2]
  logA := ![![-1, -3], ![-2, -1]]
  logE := fun i => if i = 0 then ![-1, -2] else ![-3, -1]
  maskLog := fun _ _ _ => 0

/-- The designated path of the mask-enforcement counterexample: stay in
state 0. -/
def piCex : ℕ → Fin 2 := fun _ => 0

/-- The mask-enforcement counterexample model: the `safe_log` image of a
genuine model (initial distribution `(0, 1)`, deterministic transition
matrix `[[0, 1], [1, 0]]`, all observed emission probabilities 1), masked
to allow only the designated path `piCex`.  The designated path starts in
a state of initial probability 0, so its sentinel score is matched by
off-path alternatives. -/
def vCex : LogHMM 2 where
  logInit := ![-1000, 0]
  logA := ![![-1000, 0], ![0, -1000]]
  logE := fun _ _ => 0
  maskLog := pathMask piCex

/-- Designated path of the amended mask-enforcement witness. -/
def piMaskW : ℕ → Fin 1 := fun _ => 0

/-- One-state log-domain model used by the amended mask-enforcement
witness. -/
def vMaskW : LogHMM 1 where
  logInit := fun _ => -1
  logA := fun _ _ => -2
  logE := fun _ _ => -3
  maskLog := pathMask piMaskW

/-- One-state log-domain model with `safe_log`-image bounds, used by the
padding-invariance witness. -/
def vPadW : LogHMM 1 where
  logInit := fun _ => -1
  logA := fun _ _ => -2
  logE := fun _ _ => -3
  maskLog := fun _ _ _ => 0

/-- All-zero match kernel over a one-letter alphabet (witness input). -/
noncomputable def emW : ℕ → Fin 1 → ℝ := fun _ _ => 0

/-- All-zero insertion kernel over a one-letter alphabet (witness input). -/
noncomputable def insW : Fin 1 → ℝ := fun _ => 0

/-- Model for the terminal-fill counterexample: state 0 is preferred at
every position (its emission has probability 1 under every observed
symbol, including the padding terminal symbol), state 1 is the designated
terminal state `num_states - 1`. -/
def vTerm : LogHMM 2 where
  logInit := ![0, -1000]
  logA := ![![0, -1000], ![-1000, 0]]
  logE := fun _ => ![0, -1000]
  maskLog := fun _ _ _ => 0

/-! ## Lemmas: chunk stitching -/

lemma forward_zero (m : HMM Q) (q : Fin Q) : forward m 0 q = m.init q * m.e 0 q := rfl

lemma forward_succ (m : HMM Q) (i : ℕ) (q : Fin Q) :
    forward m (i + 1) q = (∑ r, forward m i r * m.A r q) * m.e (i + 1) q := rfl

lemma sum_swap_step (v : Fin Q → ℚ) (C B : Fin Q → Fin Q → ℚ) (eq : ℚ) (q : Fin Q) :
    (∑ r, v r * ((∑ s, C r s * B s q) * eq)) = (∑ s, (∑ r, v r * C r s) * B s q) * eq := by
  simp only [Finset.sum_mul, Finset.mul_sum]
  rw [Finset.sum_comm]
  exact Finset.sum_congr rfl fun s _ => Finset.sum_congr rfl fun r _ => by ring

lemma chunk_rec (m : HMM Q) (Δ c : ℕ) (v : Fin Q → ℚ)
    (base : (∑ r, v r * chunkOp m Δ c 0 r ·) = (forward m (c * Δ) ·)) :
    ∀ t q, (∑ r, v r * chunkOp m Δ c t r q) = forward m (c * Δ + t) q := by
  intro t
  induction t with
  | zero => intro q; exact congrFun base q
  | succ t ih =>
    intro q
    show (∑ r, v r * chunkOp m Δ c (t + 1) r q) = _
    simp only [chunkOp]
    rw [sum_swap_step]
    rw [show c * Δ + (t + 1) = (c * Δ + t) + 1 from rfl, forward_succ]
    congr 1
    exact Finset.sum_congr rfl fun s _ => by rw [ih s]

/-- The chunk recombination of spec section 4.2 is exact: injecting the true
entering distribution of chunk `c` into the chunk-local operator recovers
the global forward variable at every position of the chunk. -/
lemma stitch (m : HMM Q) {Δ : ℕ} (hΔ : 0 < Δ) :
    ∀ c t q, (∑ r, entering m Δ c r * chunkOp m Δ c t r q) = forward m (c * Δ + t) q := by
  intro c
  induction c with
  | zero =>
    refine chunk_rec m Δ 0 _ ?_
    funext q
    simp only [chunkOp, entering, if_pos rfl, Nat.zero_mul, forward_zero]
    rw [Finset.sum_eq_single q]
    · simp
    · intro r _ hrq
      simp [hrq]
    · intro h
      exact absurd (Finset.mem_univ q) h
  | succ c ih =>
    have hmul : (c + 1) * Δ = (c * Δ + (Δ - 1)) + 1 := by
      have : (c + 1) * Δ = c * Δ + Δ := by ring
      omega
    have hent : ∀ r, entering m Δ (c + 1) r = forward m (c * Δ + (Δ - 1)) r := by
      intro r
      rw [entering, ih (Δ - 1) r]
    refine chunk_rec m Δ (c + 1) _ ?_
    funext q
    simp only [chunkOp, if_neg (Nat.succ_ne_zero c), Nat.add_zero]
    rw [hmul, forward_succ]
    rw [Finset.sum_congr rfl fun r _ => by rw [hent r]]
    simp only [← mul_assoc]
    rw [← Finset.sum_mul]

lemma entering_eq_forward (m : HMM Q) {Δ : ℕ} (hΔ : 0 < Δ) (P : ℕ) (hP : 0 < P) :
    ∀ q, entering m Δ P q = forward m (P * Δ - 1) q := by
  intro q
  obtain ⟨c, rfl⟩ : ∃ c, P = c + 1 := ⟨P - 1, by omega⟩
  rw [entering]
  rw [stitch m hΔ c (Δ - 1) q]
  congr 1
  have : (c + 1) * Δ = c * Δ + Δ := by ring
  omega

lemma chunkedForward_eq_forward (m : HMM Q) {Δ : ℕ} (hΔ : 0 < Δ) (i : ℕ) (q : Fin Q) :
    chunkedForward m Δ 0 i q = forward m i q := by
  unfold chunkedForward
  simp only [ite_self, add_zero]
  rw [stitch m hΔ (i / Δ) (i % Δ) q, Nat.div_add_mod' i Δ]

/-! ## Lemmas: the forward-backward identity -/

lemma sum_swap_bwd (f : Fin Q → ℚ) (T : Fin Q → Fin Q → ℚ) (E B : Fin Q → ℚ) :
    (∑ q, f q * (∑ r, T q r * E r * B r)) = ∑ r, (∑ q, f q * T q r) * E r * B r := by
  simp only [Finset.mul_sum, Finset.sum_mul]
  rw [Finset.sum_comm]
  exact Finset.sum_congr rfl fun r _ => Finset.sum_congr rfl fun q _ => by ring

lemma fb_step (m : HMM Q) {L i : ℕ} (h : i + 1 < L) :
    (∑ q, forward m i q * backward m L i q)
      = ∑ q, forward m (i + 1) q * backward m L (i + 1) q := by
  have h1 : L - 1 - i = (L - 1 - (i + 1)) + 1 := by omega
  have h2 : L - 1 - (L - 1 - (i + 1)) = i + 1 := by omega
  unfold backward
  rw [h1]
  simp only [bwdAux, h2]
  rw [sum_swap_bwd]
  exact Finset.sum_congr rfl fun r _ => by rw [forward_succ]

/-- The forward-backward product has the same total mass at every valid
position; at the last position it is the likelihood. -/
lemma fb_const (m : HMM Q) {L : ℕ} (hL : 0 < L) :
    ∀ i, i < L → (∑ q, forward m i q * backward m L i q) = lik m L := by
  suffices h : ∀ d i, i + d = L - 1 → (∑ q, forward m i q * backward m L i q) = lik m L by
    intro i hi
    exact h (L - 1 - i) i (by omega)
  intro d
  induction d with
  | zero =>
    intro i hi
    have hiL : i = L - 1 := by omega
    subst hiL
    simp [backward, bwdAux, lik, Nat.sub_self]
  | succ d ih =>
    intro i hi
    rw [fb_step m (show i + 1 < L by omega)]
    exact ih (i + 1) (by omega)

/-! ## Lemmas: padding invariance (probability space) -/

lemma padHMM_init_real (m : HMM Q) (p : ℕ) (q : Fin Q) :
    (padHMM m p).init (Fin.castAdd p q) = m.init q := by
  show dite _ _ _ = _
  rw [dif_pos (show (Fin.castAdd p q).1 < Q from by simp)]
  exact congrArg m.init (Fin.ext (by simp))

lemma padHMM_init_pad (m : HMM Q) (p : ℕ) (x : Fin (Q + p)) (hx : Q ≤ x.1) :
    (padHMM m p).init x = 0 := by
  show dite _ _ _ = _
  rw [dif_neg (by omega)]

lemma padHMM_e_real (m : HMM Q) (p i : ℕ) (q : Fin Q) :
    (padHMM m p).e i (Fin.castAdd p q) = m.e i q := by
  show dite _ _ _ = _
  rw [dif_pos (show (Fin.castAdd p q).1 < Q from by simp)]
  exact congrArg (m.e i) (Fin.ext (by simp))

lemma padHMM_e_pad (m : HMM Q) (p i : ℕ) (x : Fin (Q + p)) (hx : Q ≤ x.1) :
    (padHMM m p).e i x = 0 := by
  show dite _ _ _ = _
  rw [dif_neg (by omega)]

lemma padHMM_A_real (m : HMM Q) (p : ℕ) (r q : Fin Q) :
    (padHMM m p).A (Fin.castAdd p r) (Fin.castAdd p q) = m.A r q := by
  show dite _ _ _ = _
  rw [dif_pos (show (Fin.castAdd p r).1 < Q ∧ (Fin.castAdd p q).1 < Q from by simp)]
  have h1 : (⟨(Fin.castAdd p r).1, by simp⟩ : Fin Q) = r := Fin.ext (by simp)
  have h2 : (⟨(Fin.castAdd p q).1, by simp⟩ : Fin Q) = q := Fin.ext (by simp)
  rw [h1, h2]

lemma padHMM_A_pad (m : HMM Q) (p : ℕ) (r x : Fin (Q + p)) (hx : ¬ (r.1 < Q ∧ x.1 < Q)) :
    (padHMM m p).A r x = 0 := by
  show dite _ _ _ = _
  rw [dif_neg hx]

lemma pad_forward (m : HMM Q) (p : ℕ) :
    ∀ i, (∀ q : Fin Q, forward (padHMM m p) i (Fin.castAdd p q) = forward m i q) ∧
      (∀ x : Fin (Q + p), Q ≤ x.1 → forward (padHMM m p) i x = 0) := by
  intro i
  induction i with
  | zero =>
    constructor
    · intro q
      show (padHMM m p).init _ * (padHMM m p).e 0 _ = m.init q * m.e 0 q
      rw [padHMM_init_real, padHMM_e_real]
    · intro x hx
      show (padHMM m p).init x * (padHMM m p).e 0 x = 0
      rw [padHMM_e_pad m p 0 x hx, mul_zero]
  | succ i ih =>
    constructor
    · intro q
      rw [forward_succ, forward_succ]
      rw [padHMM_e_real]
      congr 1
      rw [Fin.sum_univ_add]
      have hpadsum : (∑ x : Fin p,
          forward (padHMM m p) i (Fin.natAdd Q x) * (padHMM m p).A (Fin.natAdd Q x)
            (Fin.castAdd p q)) = 0 := by
        refine Finset.sum_eq_zero fun x _ => ?_
        rw [ih.2 (Fin.natAdd Q x) (by simp), zero_mul]
      rw [hpadsum, add_zero]
      refine Finset.sum_congr rfl fun r _ => ?_
      rw [ih.1 r, padHMM_A_real]
    · intro x hx
      rw [forward_succ, padHMM_e_pad m p _ x hx, mul_zero]

lemma pad_lik (m : HMM Q) (p L : ℕ) : lik (padHMM m p) L = lik m L := by
  unfold lik
  rw [Fin.sum_univ_add]
  have hpad : (∑ x : Fin p, forward (padHMM m p) (L - 1) (Fin.natAdd Q x)) = 0 :=
    Finset.sum_eq_zero fun x _ => (pad_forward m p (L - 1)).2 _ (by simp)
  rw [hpad, add_zero]
  exact Finset.sum_congr rfl fun r _ => (pad_forward m p (L - 1)).1 r

lemma pad_bwdAux (m : HMM Q) (p L : ℕ) :
    ∀ j, ∀ q : Fin Q, bwdAux (padHMM m p) L j (Fin.castAdd p q) = bwdAux m L j q := by
  intro j
  induction j with
  | zero => intro q; rfl
  | succ j ih =>
    intro q
    show (∑ r, (padHMM m p).A (Fin.castAdd p q) r * (padHMM m p).e (L - 1 - j) r
        * bwdAux (padHMM m p) L j r) = _
    rw [Fin.sum_univ_add]
    have hpad : (∑ x : Fin p, (padHMM m p).A (Fin.castAdd p q) (Fin.natAdd Q x)
        * (padHMM m p).e (L - 1 - j) (Fin.natAdd Q x)
        * bwdAux (padHMM m p) L j (Fin.natAdd Q x)) = 0 := by
      refine Finset.sum_eq_zero fun x _ => ?_
      rw [padHMM_e_pad m p _ _ (by simp), mul_zero, zero_mul]
    rw [hpad, add_zero]
    refine Finset.sum_congr rfl fun r _ => ?_
    rw [ih r, padHMM_A_real, padHMM_e_real]

/-! ## Lemmas: argmax and max -/

variable {k : ℕ}

lemma le_argmaxFin [NeZero k] (f : Fin k → ℚ) (j : Fin k) : f j ≤ f (argmaxFin f) := by
  have hmem : argmaxFin f ∈ Finset.univ.filter fun i => ∀ j, f j ≤ f i :=
    Finset.min'_mem _ _
  exact (Finset.mem_filter.mp hmem).2 j

lemma maxFin_eq_argmaxFin [NeZero k] (f : Fin k → ℚ) : maxFin f = f (argmaxFin f) :=
  le_antisymm (Finset.sup'_le _ f fun j _ => le_argmaxFin f j)
    (Finset.le_sup' f (Finset.mem_univ _))

lemma argmaxFin_le [NeZero k] (f : Fin k → ℚ) (i : Fin k) (hi : ∀ j, f j ≤ f i) :
    argmaxFin f ≤ i :=
  Finset.min'_le _ i (Finset.mem_filter.mpr ⟨Finset.mem_univ i, hi⟩)

/-- The argmax with first-index tie-breaking is determined when the maximum
is strict. -/
lemma argmaxFin_eq_of_strict [NeZero k] (f : Fin k → ℚ) (i : Fin k)
    (h : ∀ j, j ≠ i → f j < f i) : argmaxFin f = i := by
  have hi : ∀ j, f j ≤ f i := by
    intro j
    by_cases hj : j = i
    · subst hj; exact le_rfl
    · exact (h j hj).le
  refine le_antisymm (argmaxFin_le f i hi) ?_
  by_contra hlt
  push_neg at hlt
  have hne : argmaxFin f ≠ i := ne_of_lt hlt
  exact absurd (lt_of_le_of_lt (le_argmaxFin f i) (h _ hne)) (lt_irrefl _)

lemma maxFin_le [NeZero k] (f : Fin k → ℚ) (c : ℚ) (h : ∀ j, f j ≤ c) : maxFin f ≤ c :=
  Finset.sup'_le _ f fun j _ => h j

lemma le_maxFin [NeZero k] (f : Fin k → ℚ) (j : Fin k) : f j ≤ maxFin f :=
  Finset.le_sup' f (Finset.mem_univ j)

lemma maxFin_two (f : Fin 2 → ℚ) : maxFin f = max (f 0) (f 1) := by
  refine le_antisymm (maxFin_le f _ fun j => ?_) (max_le (le_maxFin f 0) (le_maxFin f 1))
  fin_cases j
  · exact le_max_left _ _
  · exact le_max_right _ _

/-! ## Lemmas: padding invariance (log domain) -/

lemma maxFin_const_add [NeZero k] (c : ℚ) (f : Fin k → ℚ) :
    maxFin (fun r => c + f r) = c + maxFin f := by
  refine le_antisymm (maxFin_le _ _ fun j => add_le_add_left (le_maxFin f j) c) ?_
  rw [maxFin_eq_argmaxFin f]
  exact le_maxFin (fun r => c + f r) (argmaxFin f)

lemma maxFin_castAdd {p : ℕ} [NeZero k] (f : Fin (k + p) → ℚ)
    (hdom : ∀ x : Fin (k + p), k ≤ x.1 → ∀ r : Fin k, f x ≤ f (Fin.castAdd p r)) :
    maxFin f = maxFin (fun r : Fin k => f (Fin.castAdd p r)) := by
  refine le_antisymm (maxFin_le _ _ fun x => ?_) (maxFin_le _ _ fun r => le_maxFin f _)
  by_cases hx : x.1 < k
  · have hxx : Fin.castAdd p ⟨x.1, hx⟩ = x := Fin.ext (by simp)
    have h := le_maxFin (fun r : Fin k => f (Fin.castAdd p r)) ⟨x.1, hx⟩
    simpa [hxx] using h
  · have h := le_maxFin (fun r : Fin k => f (Fin.castAdd p r))
      ⟨0, Nat.pos_of_ne_zero (NeZero.ne k)⟩
    exact le_trans (hdom x (by omega) _) h

lemma argmaxFin_castAdd {p : ℕ} [NeZero k] (f : Fin (k + p) → ℚ)
    (hdom : ∀ x : Fin (k + p), k ≤ x.1 → ∀ r : Fin k, f x ≤ f (Fin.castAdd p r)) :
    argmaxFin f = Fin.castAdd p (argmaxFin (fun r => f (Fin.castAdd p r))) := by
  set g := fun r : Fin k => f (Fin.castAdd p r) with hg
  set a := argmaxFin g with ha
  have hfa : ∀ y, f y ≤ f (Fin.castAdd p a) := by
    intro y
    by_cases hy : y.1 < k
    · have hyy : Fin.castAdd p ⟨y.1, hy⟩ = y := Fin.ext (by simp)
      calc f y = g ⟨y.1, hy⟩ := by rw [hg]; simp only; rw [hyy]
        _ ≤ g a := le_argmaxFin g _
        _ = f (Fin.castAdd p a) := rfl
    · exact hdom y (by omega) a
  have h2 : argmaxFin f ≤ Fin.castAdd p a := argmaxFin_le f _ hfa
  rcases lt_or_eq_of_le h2 with hlt | heq
  · exfalso
    have hba : (argmaxFin f).1 < a.1 := by simpa [Fin.lt_def] using hlt
    have hbk : (argmaxFin f).1 < k := lt_trans hba a.isLt
    have hbreal : Fin.castAdd p ⟨(argmaxFin f).1, hbk⟩ = argmaxFin f := Fin.ext (by simp)
    have hmax : ∀ r : Fin k, g r ≤ g ⟨(argmaxFin f).1, hbk⟩ := by
      intro r
      show f (Fin.castAdd p r) ≤ f (Fin.castAdd p ⟨(argmaxFin f).1, hbk⟩)
      rw [hbreal]
      exact le_argmaxFin f _
    have hle : a.1 ≤ (argmaxFin f).1 := argmaxFin_le g _ hmax
    omega
  · exact heq

lemma padLog_init_real (V : LogHMM k) (p : ℕ) (q : Fin k) :
    (padLogHMM V p).logInit (Fin.castAdd p q) = V.logInit q := by
  show dite _ _ _ = _
  rw [dif_pos (show (Fin.castAdd p q).1 < k from by simp)]
  exact congrArg V.logInit (Fin.ext (by simp))

lemma padLog_init_pad (V : LogHMM k) (p : ℕ) (x : Fin (k + p)) (hx : k ≤ x.1) :
    (padLogHMM V p).logInit x = -1000 := by
  show dite _ _ _ = _
  rw [dif_neg (by omega)]

lemma padLog_E_real (V : LogHMM k) (p i : ℕ) (q : Fin k) :
    (padLogHMM V p).logE i (Fin.castAdd p q) = V.logE i q := by
  show dite _ _ _ = _
  rw [dif_pos (show (Fin.castAdd p q).1 < k from by simp)]
  exact congrArg (V.logE i) (Fin.ext (by simp))

lemma padLog_E_pad (V : LogHMM k) (p i : ℕ) (x : Fin (k + p)) (hx : k ≤ x.1) :
    (padLogHMM V p).logE i x = -1000 := by
  show dite _ _ _ = _
  rw [dif_neg (by omega)]

lemma padLog_A_real (V : LogHMM k) (p : ℕ) (r q : Fin k) :
    (padLogHMM V p).logA (Fin.castAdd p r) (Fin.castAdd p q) = V.logA r q := by
  show dite _ _ _ = _
  rw [dif_pos (show (Fin.castAdd p r).1 < k ∧ (Fin.castAdd p q).1 < k from by simp)]
  have h1 : (⟨(Fin.castAdd p r).1, by simp⟩ : Fin k) = r := Fin.ext (by simp)
  have h2 : (⟨(Fin.castAdd p q).1, by simp⟩ : Fin k) = q := Fin.ext (by simp)
  rw [h1, h2]

lemma padLog_A_pad (V : LogHMM k) (p : ℕ) (r x : Fin (k + p))
    (hx : ¬ (r.1 < k ∧ x.1 < k)) : (padLogHMM V p).logA r x = -1000 := by
  show dite _ _ _ = _
  rw [dif_neg hx]

lemma padLog_mask (V : LogHMM k) (p i : ℕ) (r x : Fin (k + p)) :
    (padLogHMM V p).maskLog i r x = 0 := rfl

/-- The padded Viterbi score table agrees with the original on real states,
and padding states never exceed any real state. -/
lemma padGamma [NeZero k] (V : LogHMM k) (p L : ℕ)
    (hmask0 : V.maskLog = fun _ _ _ => 0)
    (hIl : ∀ q, -1000 ≤ V.logInit q) (hAl : ∀ r q, -1000 ≤ V.logA r q)
    (hEl : ∀ i, i < L → ∀ q, -1000 ≤ V.logE i q) :
    ∀ i, i < L →
      (∀ q : Fin k, gammaTable (padLogHMM V p) i (Fin.castAdd p q) = gammaTable V i q) ∧
      (∀ x : Fin (k + p), k ≤ x.1 → ∀ q : Fin k,
        gammaTable (padLogHMM V p) i x ≤ gammaTable (padLogHMM V p) i (Fin.castAdd p q)) := by
  intro i
  induction i with
  | zero =>
    intro hi
    constructor
    · intro q
      show (padLogHMM V p).logInit _ + (padLogHMM V p).logE 0 _ = _
      rw [padLog_init_real, padLog_E_real]
      rfl
    · intro x hx q
      show (padLogHMM V p).logInit x + (padLogHMM V p).logE 0 x
        ≤ (padLogHMM V p).logInit _ + (padLogHMM V p).logE 0 _
      rw [padLog_init_pad V p x hx, padLog_E_pad V p 0 x hx, padLog_init_real, padLog_E_real]
      have h1 := hIl q
      have h2 := hEl 0 (by omega) q
      linarith
  | succ i ih =>
    intro hi
    have ihh := ih (by omega)
    have hEi := hEl (i + 1) hi
    have hreal : ∀ q : Fin k,
        gammaTable (padLogHMM V p) (i + 1) (Fin.castAdd p q) = gammaTable V (i + 1) q := by
      intro q
      show viterbi_step (padLogHMM V p) (gammaTable (padLogHMM V p) i) (i + 1)
          (Fin.castAdd p q) = viterbi_step V (gammaTable V i) (i + 1) q
      unfold viterbi_step
      rw [padLog_E_real]
      congr 1
      rw [maxFin_castAdd _ ?_]
      · congr 1
        funext r
        show (padLogHMM V p).logA (Fin.castAdd p r) (Fin.castAdd p q)
            + gammaTable (padLogHMM V p) i (Fin.castAdd p r)
            + (padLogHMM V p).maskLog (i + 1) (Fin.castAdd p r) (Fin.castAdd p q)
          = V.logA r q + gammaTable V i r + V.maskLog (i + 1) r q
        rw [padLog_A_real, ihh.1 r, padLog_mask, hmask0]
      · intro x hx r
        show (padLogHMM V p).logA x (Fin.castAdd p q) + gammaTable (padLogHMM V p) i x
            + (padLogHMM V p).maskLog (i + 1) x (Fin.castAdd p q)
          ≤ (padLogHMM V p).logA (Fin.castAdd p r) (Fin.castAdd p q)
            + gammaTable (padLogHMM V p) i (Fin.castAdd p r)
            + (padLogHMM V p).maskLog (i + 1) (Fin.castAdd p r) (Fin.castAdd p q)
        rw [padLog_mask, padLog_mask, padLog_A_pad V p x _ (by omega), padLog_A_real]
        have h1 := ihh.2 x hx r
        have h2 := hAl r q
        linarith
    refine ⟨hreal, ?_⟩
    intro x hx q
    obtain ⟨rb, hrb⟩ : ∃ rb : Fin k,
        maxFin (fun y => gammaTable (padLogHMM V p) i y)
          ≤ gammaTable (padLogHMM V p) i (Fin.castAdd p rb) := by
      set a := argmaxFin (fun y => gammaTable (padLogHMM V p) i y) with ha
      by_cases hak : a.1 < k
      · refine ⟨⟨a.1, hak⟩, ?_⟩
        rw [maxFin_eq_argmaxFin]
        rw [show Fin.castAdd p ⟨a.1, hak⟩ = a from Fin.ext (by simp)]
      · refine ⟨q, ?_⟩
        rw [maxFin_eq_argmaxFin]
        exact ihh.2 a (by omega) q
    show viterbi_step (padLogHMM V p) (gammaTable (padLogHMM V p) i) (i + 1) x
      ≤ viterbi_step (padLogHMM V p) (gammaTable (padLogHMM V p) i) (i + 1) (Fin.castAdd p q)
    unfold viterbi_step
    have hlhs : maxFin (fun r' => (padLogHMM V p).logA r' x
        + gammaTable (padLogHMM V p) i r' + (padLogHMM V p).maskLog (i + 1) r' x)
        + (padLogHMM V p).logE (i + 1) x
        ≤ maxFin (fun y => gammaTable (padLogHMM V p) i y) - 2000 := by
      rw [padLog_E_pad V p _ x hx]
      have hb : maxFin (fun r' => (padLogHMM V p).logA r' x
          + gammaTable (padLogHMM V p) i r' + (padLogHMM V p).maskLog (i + 1) r' x)
          ≤ maxFin (fun y => gammaTable (padLogHMM V p) i y) - 1000 := by
        refine maxFin_le _ _ fun r' => ?_
        rw [padLog_mask, padLog_A_pad V p r' x (by omega)]
        have := le_maxFin (fun y => gammaTable (padLogHMM V p) i y) r'
        linarith
      linarith
    have hrhs : gammaTable (padLogHMM V p) i (Fin.castAdd p rb) - 2000
        ≤ maxFin (fun r' => (padLogHMM V p).logA r' (Fin.castAdd p q)
          + gammaTable (padLogHMM V p) i r'
          + (padLogHMM V p).maskLog (i + 1) r' (Fin.castAdd p q))
          + (padLogHMM V p).logE (i + 1) (Fin.castAdd p q) := by
      have h1 := le_maxFin (fun r' => (padLogHMM V p).logA r' (Fin.castAdd p q)
          + gammaTable (padLogHMM V p) i r'
          + (padLogHMM V p).maskLog (i + 1) r' (Fin.castAdd p q)) (Fin.castAdd p rb)
      rw [padLog_mask, padLog_A_real] at h1
      rw [padLog_E_real]
      have h2 := hAl rb q
      have h3 := hEi q
      have h4 := ihh.1 rb
      rw [h4] at h1
      rw [ihh.1 rb] at hrb
      linarith
    have hrb2 := hrb
    rw [ihh.1 rb] at hrb2
    have hfin : gammaTable (padLogHMM V p) i (Fin.castAdd p rb) = gammaTable V i rb :=
      ihh.1 rb
    linarith [hlhs, hrhs, hrb, hfin]

/-- The padded backtracking decodes the same (real) states as the original
model: a padding state is never selected as an argmax. -/
lemma padBacktrack [NeZero k] (V : LogHMM k) (p L : ℕ) (hL : 0 < L)
    (hmask0 : V.maskLog = fun _ _ _ => 0)
    (hIl : ∀ q, -1000 ≤ V.logInit q) (hAl : ∀ r q, -1000 ≤ V.logA r q)
    (hEl : ∀ i, i < L → ∀ q, -1000 ≤ V.logE i q) :
    ∀ j, j < L → backtrack (padLogHMM V p) L j = Fin.castAdd p (backtrack V L j) := by
  have hG := padGamma V p L hmask0 hIl hAl hEl
  intro j
  induction j with
  | zero =>
    intro hj
    show argmaxFin (fun x => gammaTable (padLogHMM V p) (L - 1) x)
      = Fin.castAdd p (argmaxFin (fun q => gammaTable V (L - 1) q))
    rw [argmaxFin_castAdd _ (fun x hx r => (hG (L - 1) (by omega)).2 x hx r)]
    exact congrArg (Fin.castAdd p)
      (congrArg argmaxFin (funext fun r => (hG (L - 1) (by omega)).1 r))
  | succ j ih =>
    intro hj
    have ihb := ih (by omega)
    have hiL : L - 1 - (j + 1) < L := by omega
    show argmaxFin (fun r' => (padLogHMM V p).logA r' (backtrack (padLogHMM V p) L j)
        + (padLogHMM V p).maskLog (L - 1 - j) r' (backtrack (padLogHMM V p) L j)
        + gammaTable (padLogHMM V p) (L - 1 - (j + 1)) r')
      = Fin.castAdd p (argmaxFin (fun r => V.logA r (backtrack V L j)
          + V.maskLog (L - 1 - j) r (backtrack V L j)
          + gammaTable V (L - 1 - (j + 1)) r))
    simp only [ihb]
    have hdom : ∀ x : Fin (k + p), k ≤ x.1 → ∀ r : Fin k,
        (padLogHMM V p).logA x (Fin.castAdd p (backtrack V L j))
          + (padLogHMM V p).maskLog (L - 1 - j) x (Fin.castAdd p (backtrack V L j))
          + gammaTable (padLogHMM V p) (L - 1 - (j + 1)) x
        ≤ (padLogHMM V p).logA (Fin.castAdd p r) (Fin.castAdd p (backtrack V L j))
          + (padLogHMM V p).maskLog (L - 1 - j) (Fin.castAdd p r)
            (Fin.castAdd p (backtrack V L j))
          + gammaTable (padLogHMM V p) (L - 1 - (j + 1)) (Fin.castAdd p r) := by
      intro x hx r
      rw [padLog_mask, padLog_mask, padLog_A_pad V p x _ (by omega), padLog_A_real]
      have h1 := (hG (L - 1 - (j + 1)) hiL).2 x hx r
      have h2 := hAl r (backtrack V L j)
      linarith
    rw [argmaxFin_castAdd _ hdom]
    refine congrArg (Fin.castAdd p) (congrArg argmaxFin (funext fun r => ?_))
    rw [padLog_mask, padLog_A_real, (hG (L - 1 - (j + 1)) hiL).1 r, hmask0]

/-! ## Lemmas: Viterbi optimality -/

lemma viterbiPath_argmax_eq [NeZero k] (V : LogHMM k) {L i : ℕ} (h : i + 1 < L) :
    viterbiPath V L i = argmaxFin (fun r =>
      V.logA r (viterbiPath V L (i + 1)) + V.maskLog (i + 1) r (viterbiPath V L (i + 1))
        + gammaTable V i r) := by
  have hj : L - 1 - i = (L - 2 - i) + 1 := by omega
  have h1 : L - 1 - (L - 2 - i) = i + 1 := by omega
  have h2 : L - 1 - ((L - 2 - i) + 1) = i := by omega
  have h3 : L - 1 - (i + 1) = L - 2 - i := by omega
  unfold viterbiPath
  rw [hj]
  show argmaxFin _ = _
  rw [h3]
  simp only [h1, h2]

/-- Telescoping: the accumulated path score up to position `i` equals the
Viterbi score of the decoded state at `i`. -/
lemma pathScore_eq_gamma [NeZero k] (V : LogHMM k) {L : ℕ} :
    ∀ i, i < L → pathScore V L i = gammaTable V i (viterbiPath V L i) := by
  intro i
  induction i with
  | zero => intro _; rfl
  | succ i ih =>
    intro hi
    have hiL : i < L := by omega
    have harg := viterbiPath_argmax_eq V hi
    have hmax : maxFin (fun r =>
        V.logA r (viterbiPath V L (i + 1)) + V.maskLog (i + 1) r (viterbiPath V L (i + 1))
          + gammaTable V i r)
        = V.logA (viterbiPath V L i) (viterbiPath V L (i + 1))
          + V.maskLog (i + 1) (viterbiPath V L i) (viterbiPath V L (i + 1))
          + gammaTable V i (viterbiPath V L i) := by
      rw [maxFin_eq_argmaxFin, ← harg]
    show pathScore V L i
        + V.logA (viterbiPath V L i) (viterbiPath V L (i + 1))
        + V.maskLog (i + 1) (viterbiPath V L i) (viterbiPath V L (i + 1))
        + V.logE (i + 1) (viterbiPath V L (i + 1)) = _
    rw [ih hiL]
    show _ = viterbi_step V (gammaTable V i) (i + 1) (viterbiPath V L (i + 1))
    unfold viterbi_step
    rw [show (fun r => V.logA r (viterbiPath V L (i + 1)) + gammaTable V i r
        + V.maskLog (i + 1) r (viterbiPath V L (i + 1)))
        = (fun r => V.logA r (viterbiPath V L (i + 1))
            + V.maskLog (i + 1) r (viterbiPath V L (i + 1)) + gammaTable V i r) from
      funext fun r => by ring]
    rw [hmax]
    ring

/-! ## Claim theorems -/

/-- **C1**: for every model and every parallel factor `P` dividing the
sequence length `L`, `forward_recursion` with `parallel_factor = P`
succeeds, and its log-likelihood equals the one computed with
`parallel_factor = 1` (exactly, in exact arithmetic, hence within any
tolerance on the log scale), and the per-position forward variables agree
likewise (exactly, once the cell's epsilon guard of `MsaHmmLayer.py` line
128 — an additive perturbation of the chunk-0 boundary distribution only —
is zero). -/
theorem forward_chunked_equivalence (m : HMM Q) (L P : ℕ) (hP : 0 < P) (hd : P ∣ L)
    (hL : 0 < L) (ε : ℚ) :
    ∃ fP llP f1 ll1,
      forwardRecursion m ε L P = some (fP, llP) ∧
      forwardRecursion m ε L 1 = some (f1, ll1) ∧
      llP = ll1 ∧ (ε = 0 → ∀ i, i < L → ∀ q, fP i q = f1 i q) := by
  have hΔ : 0 < L / P := Nat.div_pos (Nat.le_of_dvd hL hd) hP
  have hmulP : P * (L / P) = L := Nat.mul_div_cancel' hd
  have hone : forwardRecursion m ε L 1 = some (forward m, lik m L) := by
    unfold forwardRecursion
    rw [if_pos ⟨by simp, Nat.one_pos⟩, if_pos rfl]
  by_cases hP1 : P = 1
  · subst hP1
    exact ⟨forward m, lik m L, forward m, lik m L, hone, hone, rfl, fun _ _ _ _ => rfl⟩
  · refine ⟨chunkedForward m (L / P) ε, chunkedLik m (L / P) P, forward m, lik m L,
      ?_, hone, ?_, ?_⟩
    · unfold forwardRecursion
      rw [if_pos ⟨hmulP, hP⟩, if_neg hP1]
    · unfold chunkedLik lik
      refine Finset.sum_congr rfl fun q _ => ?_
      rw [entering_eq_forward m hΔ P hP q, hmulP]
    · intro hε i hi q
      subst hε
      exact chunkedForward_eq_forward m hΔ i q

/-- Witness for C1 at a concrete model, `L = 2`, `P = 2`, `ε = 0`. -/
theorem forward_chunked_equivalence_witness :
    ∃ fP llP f1 ll1,
      forwardRecursion mW2 0 2 2 = some (fP, llP) ∧
      forwardRecursion mW2 0 2 1 = some (f1, ll1) ∧
      llP = ll1 ∧ ((0 : ℚ) = 0 → ∀ i, i < 2 → ∀ q, fP i q = f1 i q) :=
  forward_chunked_equivalence mW2 2 2 (by norm_num) (by norm_num) (by norm_num) 0

/-- **C2**: the state path returned by `viterbi` is optimal: summing the
initial, transition (with mask term) and emission log-probabilities along
the returned path yields exactly `max_q gamma_{L-1}(q)` from the score
table computed by `viterbi_dyn_prog`. -/
theorem viterbi_path_optimal [NeZero k] (V : LogHMM k) (L : ℕ) (hL : 0 < L) :
    pathScore V L (L - 1) = maxFin (fun q => gammaTable V (L - 1) q) := by
  rw [pathScore_eq_gamma V (L - 1) (by omega), maxFin_eq_argmaxFin]
  congr 1
  show backtrack V L (L - 1 - (L - 1)) = _
  rw [Nat.sub_self]
  rfl

/-- Witness for C2 at a concrete two-state model with `L = 3`. -/
theorem viterbi_path_optimal_witness :
    pathScore vW 3 2 = maxFin (fun q => gammaTable vW 2 q) :=
  viterbi_path_optimal vW 3 (by norm_num)

/-- **C3**: at every valid position `i` the total mass of the
forward-backward product equals the sequence likelihood independently of
`i` (the probability-space form of
`logsumexp_q (forward(i,q) + backward(i,q)) = loglik`), and consequently
the state posteriors of `state_posterior_log_probs` sum to 1 over the
states at every valid position. -/
theorem posterior_loglik_link (m : HMM Q) (L : ℕ) (hL : 0 < L) :
    (∀ i, i < L → (∑ q, forward m i q * backward m L i q) = lik m L) ∧
    (lik m L ≠ 0 → ∀ i, i < L → (∑ q, posterior m L i q) = 1) := by
  refine ⟨fb_const m hL, fun hne i hi => ?_⟩
  unfold posterior
  rw [← Finset.sum_div, fb_const m hL i hi, div_self hne]

/-- Witness for C3 at a concrete two-state model with `L = 3`. -/
theorem posterior_loglik_link_witness :
    (∀ i, i < 3 → (∑ q, forward mW2 i q * backward mW2 3 i q) = lik mW2 3) ∧
    (lik mW2 3 ≠ 0 → ∀ i, i < 3 → (∑ q, posterior mW2 3 i q) = 1) :=
  posterior_loglik_link mW2 3 (by norm_num)

/-- **C9**: `forward_recursion` succeeds exactly when the parallel factor
is positive and divides the sequence length — otherwise the
`tf.reshape` of `MsaHmmLayer.py` line 91 raises a shape error — and
whenever it succeeds the returned log-likelihood accounts for the full
sequence (it equals the likelihood of all `L` positions: nothing is
silently truncated). -/
theorem forward_divisibility_check (m : HMM Q) (ε : ℚ) (L P : ℕ) (hL : 0 < L) :
    ((forwardRecursion m ε L P).isSome ↔ 0 < P ∧ P ∣ L) ∧
    (∀ fr ll, forwardRecursion m ε L P = some (fr, ll) → ll = lik m L) := by
  constructor
  · constructor
    · intro hs
      by_cases hc : P * (L / P) = L ∧ 0 < P
      · exact ⟨hc.2, ⟨L / P, hc.1.symm⟩⟩
      · unfold forwardRecursion at hs
        rw [if_neg hc] at hs
        simp at hs
    · rintro ⟨hP, hd⟩
      unfold forwardRecursion
      rw [if_pos ⟨Nat.mul_div_cancel' hd, hP⟩]
      by_cases hP1 : P = 1
      · rw [if_pos hP1]; rfl
      · rw [if_neg hP1]; rfl
  · intro fr ll hsome
    by_cases hc : P * (L / P) = L ∧ 0 < P
    · have hΔ : 0 < L / P := by
        rcases Nat.eq_zero_or_pos (L / P) with h0 | h
        · rw [h0, Nat.mul_zero] at hc; omega
        · exact h
      unfold forwardRecursion at hsome
      rw [if_pos hc] at hsome
      by_cases hP1 : P = 1
      · rw [if_pos hP1] at hsome
        injection hsome with h
        exact (congrArg Prod.snd h).symm
      · rw [if_neg hP1] at hsome
        injection hsome with h
        have hll : ll = chunkedLik m (L / P) P := (congrArg Prod.snd h).symm
        rw [hll]
        unfold chunkedLik lik
        refine Finset.sum_congr rfl fun q _ => ?_
        rw [entering_eq_forward m hΔ P hc.2 q, hc.1]
    · unfold forwardRecursion at hsome
      rw [if_neg hc] at hsome
      exact absurd hsome (by simp)

/-- Witness for C9: `P = 3` does not divide `L = 2`, hence the call is
rejected, and the successful `P = 2` call returns the full-sequence
likelihood. -/
theorem forward_divisibility_check_witness :
    ((forwardRecursion mW2 0 2 3).isSome ↔ 0 < 3 ∧ 3 ∣ 2) ∧
    (∀ fr ll, forwardRecursion mW2 0 2 3 = some (fr, ll) → ll = lik mW2 2) :=
  forward_divisibility_check mW2 0 2 3 (by norm_num)

/-- **C5**: the score table accumulated by `viterbi_dyn_prog` satisfies the
max-plus recurrence: `gamma_0(q) = log(init(q)) + log(emission_0(q))` and
`gamma_{i+1}(q) = max over predecessor states r of (log A(r,q) +
gamma_i(r) + log mask_{i+1}(r,q)) + log(emission_{i+1}(q))`, where the max
is the supremum over the full (nonempty) state set. -/
theorem viterbi_gamma_recurrence [NeZero k] (V : LogHMM k) (i : ℕ) (q : Fin k) :
    gammaTable V 0 q = V.logInit q + V.logE 0 q ∧
    gammaTable V (i + 1) q
      = Finset.univ.sup' Finset.univ_nonempty
          (fun r => V.logA r q + gammaTable V i r + V.maskLog (i + 1) r q)
        + V.logE (i + 1) q :=
  ⟨rfl, rfl⟩

/-- Witness for C5 at a concrete two-state model, position 1, state 0. -/
theorem viterbi_gamma_recurrence_witness :
    gammaTable vW 0 0 = vW.logInit 0 + vW.logE 0 0 ∧
    gammaTable vW (0 + 1) 0
      = Finset.univ.sup' Finset.univ_nonempty
          (fun r => vW.logA r 0 + gammaTable vW 0 r + vW.maskLog (0 + 1) r 0)
        + vW.logE (0 + 1) 0 :=
  viterbi_gamma_recurrence vW 0 0

/-- **C4, counterexample**: for a nonzero input below `float32` tiny (a
subnormal magnitude, e.g. `tiny / 2`), `safe_log` does not return the true
logarithm of its input: the inner `tf.maximum(x, tiny)` clamps the
argument first. -/
theorem safe_log_subnormal_counterexample :
    floatTiny / 2 ≠ 0 ∧ safe_log (floatTiny / 2) ≠ Real.log (floatTiny / 2) := by
  have ht : (0 : ℝ) < floatTiny := by unfold floatTiny; positivity
  have hx : (0 : ℝ) < floatTiny / 2 := by linarith
  refine ⟨ne_of_gt hx, ?_⟩
  have h1 : safe_log (floatTiny / 2) = Real.log floatTiny := by
    unfold safe_log zero_mask
    rw [if_neg (ne_of_gt hx)]
    rw [max_eq_right (by linarith)]
    ring
  rw [h1]
  intro heq
  have hlt : Real.log (floatTiny / 2) < Real.log floatTiny :=
    Real.log_lt_log hx (by linarith)
  rw [heq] at hlt
  exact lt_irrefl _ hlt

/-- **C4, amended**: `safe_log` returns the finite sentinel `-1000` (not
`-inf`) at `x = 0` and `log(max(x, tiny))` at every nonzero `x`, which is
the true logarithm `log x` whenever `x ≥ tiny`; the selection is the
element-wise mask blend of the definition, with no data-dependent branch. -/
theorem safe_log_amended :
    safe_log 0 = -1000 ∧
    (∀ x : ℝ, x ≠ 0 → safe_log x = Real.log (max x floatTiny)) ∧
    (∀ x : ℝ, floatTiny ≤ x → safe_log x = Real.log x) := by
  have ht : (0 : ℝ) < floatTiny := by unfold floatTiny; positivity
  refine ⟨?_, fun x hx => ?_, fun x hx => ?_⟩
  · unfold safe_log zero_mask
    rw [if_pos rfl]
    ring
  · unfold safe_log zero_mask
    rw [if_neg hx]
    ring
  · unfold safe_log zero_mask
    rw [if_neg (by intro h; rw [h] at hx; linarith), max_eq_left hx]
    ring

/-- Witness for C4 (amended): at `x = 1` the hypothesis `tiny ≤ x` holds
and `safe_log` returns the true logarithm. -/
theorem safe_log_amended_witness : safe_log 1 = Real.log 1 :=
  safe_log_amended.2.2 1 (by unfold floatTiny; norm_num)

/-! ## Lemmas: emission matrix structure -/

lemma softmaxRow_sum {s : ℕ} (hs : 0 < s) (v : Fin s → ℝ) : (∑ j, softmaxRow v j) = 1 := by
  unfold softmaxRow
  rw [← Finset.sum_div]
  refine div_self (ne_of_gt (Finset.sum_pos (fun t _ => Real.exp_pos _) ⟨⟨0, hs⟩, Finset.mem_univ _⟩))

lemma softmax_padded_row_sum {s : ℕ} (hs : 0 < s) (v : Fin s → ℝ) :
    (∑ j : Fin (s + 1), if hj : j.1 < s then softmaxRow v ⟨j.1, hj⟩ else 0) = 1 := by
  rw [Fin.sum_univ_castSucc]
  have hlast : ¬ ((Fin.last s).1 < s) := by simp
  rw [dif_neg hlast, add_zero]
  have hcast : ∀ j : Fin s,
      (if hj : (Fin.castSucc j).1 < s then softmaxRow v ⟨(Fin.castSucc j).1, hj⟩ else 0)
        = softmaxRow v j := by
    intro j
    rw [dif_pos (show (Fin.castSucc j).1 < s from by simp)]
    exact congrArg (softmaxRow v) (Fin.ext (by simp))
  rw [Finset.sum_congr rfl fun j _ => hcast j]
  exact softmaxRow_sum hs v

/-- **C10**: the emission matrix built by `make_default_emission_matrix`
and padded by `make_B` satisfies: every real-state row is a probability
distribution summing to 1; every real-state row except the final end-state
row assigns probability 0 to the terminal symbol; the end-state row is the
one-hot vector on the terminal symbol; and every padding row is
identically zero. -/
theorem emission_matrix_structure {s : ℕ} (hs : 0 < s) (em : ℕ → Fin s → ℝ)
    (ins : Fin s → ℝ) (length pad : ℕ) :
    (∀ r : Fin (2 * length + 3),
      (∑ j, make_B em ins length pad ⟨r.1, by omega⟩ j) = 1) ∧
    (∀ r : Fin (2 * length + 2),
      make_B em ins length pad ⟨r.1, by omega⟩ (Fin.last s) = 0) ∧
    (make_B em ins length pad ⟨2 * length + 2, by omega⟩ (Fin.last s) = 1 ∧
      ∀ j : Fin s, make_B em ins length pad ⟨2 * length + 2, by omega⟩ j.castSucc = 0) ∧
    (∀ r : Fin (2 * length + 3 + pad), 2 * length + 3 ≤ r.1 →
      ∀ j, make_B em ins length pad r j = 0) := by
  refine ⟨?_, ?_, ⟨?_, ?_⟩, ?_⟩
  · intro r
    have hr3 : r.1 < 2 * length + 3 := r.2
    unfold make_B
    rw [Finset.sum_congr rfl fun j _ => dif_pos hr3]
    unfold make_default_emission_matrix
    by_cases hr2 : r.1 < 2 * length + 2
    · rw [Finset.sum_congr rfl fun j _ => dif_pos hr2]
      exact softmax_padded_row_sum hs _
    · rw [Finset.sum_congr rfl fun j _ => dif_neg hr2]
      rw [Fin.sum_univ_castSucc]
      have hcs : ∀ j : Fin s, ((if (Fin.castSucc j).1 = s then (1 : ℝ) else 0)) = 0 :=
        fun j => if_neg (show ¬ ((Fin.castSucc j).1 = s) from by
          simpa using Nat.ne_of_lt j.isLt)
      rw [Finset.sum_congr rfl fun j _ => hcs j, Finset.sum_const_zero, zero_add]
      exact if_pos (show (Fin.last s).1 = s from rfl)
  · intro r
    have hr3 : r.1 < 2 * length + 3 := by omega
    have hr2 : r.1 < 2 * length + 2 := r.2
    unfold make_B make_default_emission_matrix
    rw [dif_pos hr3, dif_pos hr2, dif_neg (show ¬ ((Fin.last s).1 < s) from by simp)]
  · unfold make_B make_default_emission_matrix
    rw [dif_pos (show 2 * length + 2 < 2 * length + 3 from by omega),
      dif_neg (show ¬ (2 * length + 2 < 2 * length + 2) from by omega),
      if_pos (show (Fin.last s).1 = s from rfl)]
  · intro j
    unfold make_B make_default_emission_matrix
    rw [dif_pos (show 2 * length + 2 < 2 * length + 3 from by omega),
      dif_neg (show ¬ (2 * length + 2 < 2 * length + 2) from by omega),
      if_neg (show ¬ ((Fin.castSucc j).1 = s) from by simpa using Nat.ne_of_lt j.isLt)]
  · intro r hr j
    unfold make_B
    rw [dif_neg (by omega)]

/-- Witness for C10 at alphabet size 1, model length 0, no padding. -/
theorem emission_matrix_structure_witness :
    (∀ r : Fin (2 * 0 + 3), (∑ j, make_B emW insW 0 0 ⟨r.1, by omega⟩ j) = 1) ∧
    (∀ r : Fin (2 * 0 + 2), make_B emW insW 0 0 ⟨r.1, by omega⟩ (Fin.last 1) = 0) ∧
    (make_B emW insW 0 0 ⟨2 * 0 + 2, by omega⟩ (Fin.last 1) = 1 ∧
      ∀ j : Fin 1, make_B emW insW 0 0 ⟨2 * 0 + 2, by omega⟩ j.castSucc = 0) ∧
    (∀ r : Fin (2 * 0 + 3 + 0), 2 * 0 + 3 ≤ r.1 → ∀ j, make_B emW insW 0 0 r j = 0) :=
  emission_matrix_structure (by norm_num) emW insW 0 0

/-- **C8, counterexample**: a sequence of true length 1 decoded inside a
batch of width 3 (its batch also contains a longer sequence, so the
decoded slice extends past its own length).  Position 2 lies strictly
beyond the true length, yet the output holds the decoded state 0 of the
Viterbi path — not the designated terminal-state id `num_states - 1 = 1`:
the slice assignment of `Viterbi.py` line 193 overwrites every position up
to the batch width with decoded states. -/
theorem terminal_fill_counterexample :
    1 < 2 ∧ stateSeqEntry vTerm 3 2 = 0 ∧ stateSeqEntry vTerm 3 2 ≠ 2 - 1 := by
  have g00 : gammaTable vTerm 0 0 = 0 := by
    show vTerm.logInit 0 + vTerm.logE 0 0 = 0
    norm_num [vTerm]
  have g01 : gammaTable vTerm 0 1 = -2000 := by
    show vTerm.logInit 1 + vTerm.logE 0 1 = -2000
    norm_num [vTerm]
  have g10 : gammaTable vTerm 1 0 = 0 := by
    show viterbi_step vTerm (gammaTable vTerm 0) 1 0 = 0
    unfold viterbi_step
    rw [maxFin_two]
    simp only [g00, g01]
    norm_num [vTerm, max_def]
  have g11 : gammaTable vTerm 1 1 = -2000 := by
    show viterbi_step vTerm (gammaTable vTerm 0) 1 1 = -2000
    unfold viterbi_step
    rw [maxFin_two]
    simp only [g00, g01]
    norm_num [vTerm, max_def]
  have g20 : gammaTable vTerm 2 0 = 0 := by
    show viterbi_step vTerm (gammaTable vTerm 1) 2 0 = 0
    unfold viterbi_step
    rw [maxFin_two]
    simp only [g10, g11]
    norm_num [vTerm, max_def]
  have g21 : gammaTable vTerm 2 1 = -2000 := by
    show viterbi_step vTerm (gammaTable vTerm 1) 2 1 = -2000
    unfold viterbi_step
    rw [maxFin_two]
    simp only [g10, g11]
    norm_num [vTerm, max_def]
  have hpath : viterbiPath vTerm 3 2 = 0 := by
    show backtrack vTerm 3 (3 - 1 - 2) = 0
    rw [show (3 - 1 - 2 : ℕ) = 0 from rfl]
    show argmaxFin (fun q => gammaTable vTerm (3 - 1) q) = 0
    refine argmaxFin_eq_of_strict _ 0 fun j hj => ?_
    fin_cases j
    · exact absurd rfl hj
    · show gammaTable vTerm 2 1 < gammaTable vTerm 2 0
      rw [g20, g21]
      norm_num
  have hentry : stateSeqEntry vTerm 3 2 = 0 := by
    show (if 2 < 3 then (viterbiPath vTerm 3 2).1 else 2 - 1) = 0
    rw [if_pos (by norm_num), hpath]
    rfl
  exact ⟨by norm_num, hentry, by rw [hentry]; norm_num⟩

/-- **C8, amended**: positions at or beyond the width of the sequence's
decoded batch hold the designated terminal-state id `num_states - 1` (from
the terminal initialization of `Viterbi.py` lines 163-186); positions
inside the batch width — including those strictly beyond the sequence's
own true length — hold the Viterbi-decoded state. -/
theorem terminal_fill_amended {k : ℕ} [NeZero k] (V : LogHMM k) (l p : ℕ) :
    (p < l → stateSeqEntry V l p = (viterbiPath V l p).1) ∧
    (l ≤ p → stateSeqEntry V l p = k - 1) := by
  constructor
  · intro h
    exact if_pos h
  · intro h
    exact if_neg (by omega)

/-- Witness for C8 (amended): beyond the batch width the terminal id is
returned. -/
theorem terminal_fill_amended_witness : stateSeqEntry vTerm 3 5 = 2 - 1 :=
  (terminal_fill_amended vTerm 3 5).2 (by norm_num)

/-- **C6, counterexample**: a model whose transition mask forbids every
transition except those along the designated path `piCex` (staying in
state 0), yet `viterbi` does not return that path: the designated path
starts in a state of initial probability 0, whose finite `safe_log`
sentinel `-1000` is beaten by an off-path alternative during
backtracking.  The decoded state at position 0 is 1, not `piCex 0 = 0`. -/
theorem mask_enforcement_counterexample :
    vCex.maskLog = pathMask piCex ∧ viterbiPath vCex 2 0 ≠ piCex 0 := by
  have g00 : gammaTable vCex 0 0 = -1000 := by
    show vCex.logInit 0 + vCex.logE 0 0 = -1000
    norm_num [vCex]
  have g01 : gammaTable vCex 0 1 = 0 := by
    show vCex.logInit 1 + vCex.logE 0 1 = 0
    norm_num [vCex]
  have g10 : gammaTable vCex 1 0 = -1000 := by
    show viterbi_step vCex (gammaTable vCex 0) 1 0 = -1000
    unfold viterbi_step
    rw [maxFin_two]
    simp only [g00, g01]
    norm_num [vCex, pathMask, piCex, max_def]
  have g11 : gammaTable vCex 1 1 = -2000 := by
    show viterbi_step vCex (gammaTable vCex 0) 1 1 = -2000
    unfold viterbi_step
    rw [maxFin_two]
    simp only [g00, g01]
    norm_num [vCex, pathMask, piCex, max_def]
  have hbt0 : backtrack vCex 2 0 = 0 := by
    show argmaxFin (fun q => gammaTable vCex (2 - 1) q) = 0
    refine argmaxFin_eq_of_strict _ 0 fun j hj => ?_
    fin_cases j
    · exact absurd rfl hj
    · show gammaTable vCex 1 1 < gammaTable vCex 1 0
      rw [g10, g11]
      norm_num
  have hbt1 : backtrack vCex 2 1 = 1 := by
    show argmaxFin (fun r => vCex.logA r (backtrack vCex 2 0)
        + vCex.maskLog (2 - 1 - 0) r (backtrack vCex 2 0)
        + gammaTable vCex (2 - 1 - 1) r) = 1
    simp only [hbt0]
    refine argmaxFin_eq_of_strict _ 1 fun j hj => ?_
    fin_cases j
    · show vCex.logA 0 0 + vCex.maskLog (2 - 1 - 0) 0 0 + gammaTable vCex (2 - 1 - 1) 0
        < vCex.logA 1 0 + vCex.maskLog (2 - 1 - 0) 1 0 + gammaTable vCex (2 - 1 - 1) 1
      rw [show (2 - 1 - 1 : ℕ) = 0 from rfl, show (2 - 1 - 0 : ℕ) = 1 from rfl]
      rw [g00, g01]
      norm_num [vCex, pathMask, piCex]
    · exact absurd rfl hj
  refine ⟨rfl, ?_⟩
  show backtrack vCex 2 (2 - 1 - 0) ≠ piCex 0
  rw [show (2 - 1 - 0 : ℕ) = 1 from rfl, hbt1]
  decide

/-- **C6, amended**: if the transition mask forbids every transition except
those along one designated path `π`, then `viterbi` returns exactly that
path — provided the sequence has at least two positions, every log-domain
input is nonpositive (probabilities at most 1), and every initial,
transition and emission log-probability along the designated path exceeds
`-B` for some bound `B > 0` with `2·L·B ≤ 1000`; the last condition makes
the finite `-1000` sentinel of `safe_log 0` dominate every accumulated
on-path score, which the counterexample shows is necessary: a designated
path carrying zero probability mass (or a sentinel overwhelmed over a long
sequence) need not be returned. -/
theorem mask_enforcement_amended [NeZero k] (V : LogHMM k) (π : ℕ → Fin k)
    (L : ℕ) (B : ℚ) (hL : 2 ≤ L) (hmask : V.maskLog = pathMask π)
    (hB : 0 < B) (hBL : 2 * (L : ℚ) * B ≤ 1000)
    (hInitLe : ∀ q, V.logInit q ≤ 0) (hALe : ∀ r q, V.logA r q ≤ 0)
    (hELe : ∀ i, i < L → ∀ q, V.logE i q ≤ 0)
    (honInit : -B < V.logInit (π 0))
    (honA : ∀ i, i + 1 < L → -B < V.logA (π i) (π (i + 1)))
    (honE : ∀ i, i < L → -B < V.logE i (π i)) :
    ∀ i, i < L → viterbiPath V L i = π i := by
  have hmul : ∀ c : ℚ, c ≤ 2 * (L : ℚ) → c * B ≤ 1000 := fun c hc =>
    le_trans (mul_le_mul_of_nonneg_right hc hB.le) hBL
  have hmaskLe : ∀ i r q, V.maskLog i r q ≤ 0 := by
    intro i r q
    rw [hmask]
    unfold pathMask
    split_ifs <;> norm_num
  have gle : ∀ i, i < L → ∀ q, gammaTable V i q ≤ 0 := by
    intro i
    induction i with
    | zero =>
      intro h q
      exact add_nonpos (hInitLe q) (hELe 0 (by omega) q)
    | succ i ih =>
      intro hi q
      show viterbi_step V (gammaTable V i) (i + 1) q ≤ 0
      unfold viterbi_step
      refine add_nonpos (maxFin_le _ 0 fun r => ?_) (hELe (i + 1) hi q)
      have h1 := hALe r q
      have h2 := ih (by omega) r
      have h3 := hmaskLe (i + 1) r q
      linarith
  have gpath : ∀ i, i < L → -(2 * (i : ℚ) + 2) * B < gammaTable V i (π i) := by
    intro i
    induction i with
    | zero =>
      intro h
      have h2 := honE 0 (by omega)
      show _ < V.logInit (π 0) + V.logE 0 (π 0)
      push_cast
      linarith
    | succ i ih =>
      intro hi
      have hiL : i < L := by omega
      show _ < viterbi_step V (gammaTable V i) (i + 1) (π (i + 1))
      unfold viterbi_step
      have hm0 : V.maskLog (i + 1) (π i) (π (i + 1)) = 0 := by
        rw [hmask]
        exact if_pos ⟨rfl, rfl⟩
      have h1 : V.logA (π i) (π (i + 1)) + gammaTable V i (π i)
          + V.maskLog (i + 1) (π i) (π (i + 1))
          ≤ maxFin (fun r => V.logA r (π (i + 1)) + gammaTable V i r
              + V.maskLog (i + 1) r (π (i + 1))) :=
        le_maxFin _ (π i)
      have h2 := honA i hi
      have h3 := honE (i + 1) hi
      have h4 := ih hiL
      rw [hm0] at h1
      push_cast
      linarith
  have gOn1000 : ∀ i, i < L → (-1000 : ℚ) < gammaTable V i (π i) := by
    intro i hi
    have h1 := gpath i hi
    have h2 : (2 * (i : ℚ) + 2) * B ≤ 1000 := by
      refine hmul _ ?_
      have hc : (i : ℚ) + 1 ≤ (L : ℚ) := by exact_mod_cast Nat.succ_le_of_lt hi
      linarith
    nlinarith
  have goff : ∀ i, i < L → 1 ≤ i → ∀ q, q ≠ π i → gammaTable V i q ≤ -1000 := by
    intro i hi h1i q hq
    obtain ⟨j, rfl⟩ : ∃ j, i = j + 1 := ⟨i - 1, by omega⟩
    show viterbi_step V (gammaTable V j) (j + 1) q ≤ -1000
    unfold viterbi_step
    have hE := hELe (j + 1) hi q
    have hm : maxFin (fun r => V.logA r q + gammaTable V j r + V.maskLog (j + 1) r q)
        ≤ -1000 := by
      refine maxFin_le _ _ fun r => ?_
      have hA := hALe r q
      have hg := gle j (by omega) r
      have hmr : V.maskLog (j + 1) r q = -1000 := by
        rw [hmask]
        exact if_neg fun h => hq h.2
      linarith
    linarith
  have hbt : ∀ j, j < L → backtrack V L j = π (L - 1 - j) := by
    intro j
    induction j with
    | zero =>
      intro hj
      show argmaxFin (fun q => gammaTable V (L - 1) q) = π (L - 1)
      refine argmaxFin_eq_of_strict _ _ fun q hq => ?_
      have h1 := goff (L - 1) (by omega) (by omega) q hq
      have h2 := gOn1000 (L - 1) (by omega)
      linarith
    | succ j ih =>
      intro hj
      have hbtj : backtrack V L j = π (L - 1 - j) := ih (by omega)
      set i := L - 1 - (j + 1) with hidef
      have hidx1 : L - 1 - j = i + 1 := by omega
      have hiL : i + 1 < L := by omega
      show argmaxFin (fun r => V.logA r (backtrack V L j)
          + V.maskLog (L - 1 - j) r (backtrack V L j)
          + gammaTable V (L - 1 - (j + 1)) r) = π (L - 1 - (j + 1))
      rw [hbtj, hidx1]
      refine argmaxFin_eq_of_strict _ _ fun r hr => ?_
      have hm0 : V.maskLog (i + 1) (π i) (π (i + 1)) = 0 := by
        rw [hmask]
        exact if_pos ⟨rfl, rfl⟩
      have hmr : V.maskLog (i + 1) r (π (i + 1)) = -1000 := by
        rw [hmask]
        exact if_neg fun h => hr h.1
      have honval : (-1000 : ℚ) < V.logA (π i) (π (i + 1))
          + V.maskLog (i + 1) (π i) (π (i + 1)) + gammaTable V i (π i) := by
        rw [hm0]
        have h2 := honA i hiL
        have h4 := gpath i (by omega)
        have h5 : (2 * (i : ℚ) + 3) * B ≤ 1000 := by
          refine hmul _ ?_
          have hc : (i : ℚ) + 2 ≤ (L : ℚ) := by exact_mod_cast (by omega : i + 2 ≤ L)
          linarith
        nlinarith
      have hoffval : V.logA r (π (i + 1)) + V.maskLog (i + 1) r (π (i + 1))
          + gammaTable V i r ≤ -1000 := by
        rw [hmr]
        have h6 := hALe r (π (i + 1))
        have h7 := gle i (by omega) r
        linarith
      linarith
  intro i hi
  unfold viterbiPath
  rw [hbt (L - 1 - i) (by omega)]
  congr 1
  omega

/-- **C7**: adding `p` unused padding states — zero emission rows as
constructed by `make_B`, zero transition/initial mass as specified for the
cell — changes no likelihood, no posterior at a real state (padding states
get posterior 0), and no decoded Viterbi path; a padding state is never
selected as an argmax.  The log-domain inputs of the Viterbi engine are
`safe_log` images of probabilities and hence bounded below by the sentinel
`-1000`; decoding is without a transition mask. -/
theorem padding_invariance (m : HMM Q) [NeZero k] (V : LogHMM k) (p L : ℕ) (hL : 0 < L)
    (hmask0 : V.maskLog = fun _ _ _ => 0)
    (hIl : ∀ q, -1000 ≤ V.logInit q) (hAl : ∀ r q, -1000 ≤ V.logA r q)
    (hEl : ∀ i, i < L → ∀ q, -1000 ≤ V.logE i q) :
    lik (padHMM m p) L = lik m L ∧
    (∀ i, i < L → ∀ q : Fin Q,
      posterior (padHMM m p) L i (Fin.castAdd p q) = posterior m L i q) ∧
    (∀ i, i < L → ∀ x : Fin (Q + p), Q ≤ x.1 → posterior (padHMM m p) L i x = 0) ∧
    (∀ i, i < L → viterbiPath (padLogHMM V p) L i = Fin.castAdd p (viterbiPath V L i)) ∧
    (∀ i, i < L → (viterbiPath (padLogHMM V p) L i).1 < k) := by
  refine ⟨pad_lik m p L, ?_, ?_, ?_, ?_⟩
  · intro i hi q
    unfold posterior backward
    rw [(pad_forward m p i).1 q, pad_bwdAux m p L _ q, pad_lik]
  · intro i hi x hx
    unfold posterior
    rw [(pad_forward m p i).2 x hx, zero_mul, zero_div]
  · intro i hi
    unfold viterbiPath
    exact padBacktrack V p L hL hmask0 hIl hAl hEl (L - 1 - i) (by omega)
  · intro i hi
    unfold viterbiPath
    rw [padBacktrack V p L hL hmask0 hIl hAl hEl (L - 1 - i) (by omega)]
    simp

/-- Witness for C7 at a one-state model padded by one state, `L = 2`. -/
theorem padding_invariance_witness :
    lik (padHMM mW 1) 2 = lik mW 2 ∧
    (∀ i, i < 2 → ∀ q : Fin 1,
      posterior (padHMM mW 1) 2 i (Fin.castAdd 1 q) = posterior mW 2 i q) ∧
    (∀ i, i < 2 → ∀ x : Fin (1 + 1), 1 ≤ x.1 → posterior (padHMM mW 1) 2 i x = 0) ∧
    (∀ i, i < 2 → viterbiPath (padLogHMM vPadW 1) 2 i = Fin.castAdd 1 (viterbiPath vPadW 2 i)) ∧
    (∀ i, i < 2 → (viterbiPath (padLogHMM vPadW 1) 2 i).1 < 1) :=
  padding_invariance mW vPadW 1 2 (by norm_num) rfl
    (fun q => by norm_num [vPadW])
    (fun r q => by norm_num [vPadW])
    (fun i _ q => by norm_num [vPadW])

/-- Witness for C6 (amended) at a one-state model, `L = 2`, `B = 100`,
position 0. -/
theorem mask_enforcement_amended_witness : viterbiPath vMaskW 2 0 = piMaskW 0 :=
  mask_enforcement_amended vMaskW piMaskW 2 100 (by norm_num) rfl (by norm_num)
    (by norm_num)
    (fun q => by norm_num [vMaskW])
    (fun r q => by norm_num [vMaskW])
    (fun i _ q => by norm_num [vMaskW])
    (by norm_num [vMaskW])
    (fun i _ => by norm_num [vMaskW])
    (fun i _ => by norm_num [vMaskW])
    0 (by norm_num)

end LearnMSA
